import Mathlib

/-!
Shallow embedding of `saul/spectral/psd.py` (the `PSD` class): spectral
estimation orchestration, dB normalization, noise-model re-referencing and
automatic display-range selection.

Conventions used throughout:
* Python floats are modelled by exact numbers: `ℚ` (or `ℝ` where logarithms
  appear).  Where the code can produce IEEE-754 `-inf`/`+inf`/NaN (the
  logarithm of non-positive powers and the statistics computed from them),
  values are modelled by `Saul.FVal`, rationals extended with the three
  non-finite elements and IEEE-like arithmetic.
* External library calls (`scipy.signal.welch`, the multitaper estimator,
  obspy noise-model providers) are parameters of the embedding; the code of
  this repository that consumes them is translated faithfully.
* Members of `saul/spectral/helpers.py` are not part of the sources here;
  where a claim depends on them they are modelled from the spec, and each
  such definition is marked `Modelled from the spec:` in its doc comment.
-/

namespace Saul

/-- Rationals extended with `+inf`, `-inf` and NaN, modelling the IEEE-754
doubles that flow through the dB pipeline of `psd.py` (where `10*log10` of a
non-positive power yields `-inf` or NaN). -/
inductive FVal where
  | fin : ℚ → FVal
  | posinf : FVal
  | neginf : FVal
  | nan : FVal
deriving DecidableEq

/-- IEEE negation on `FVal`. -/
def FVal.neg : FVal → FVal
  | fin q => fin (-q)
  | posinf => neginf
  | neginf => posinf
  | nan => nan

/-- IEEE addition on `FVal` (`inf + -inf = NaN`, NaN propagates). -/
def FVal.add : FVal → FVal → FVal
  | nan, _ => nan
  | _, nan => nan
  | fin p, fin q => fin (p + q)
  | fin _, posinf => posinf
  | fin _, neginf => neginf
  | posinf, fin _ => posinf
  | neginf, fin _ => neginf
  | posinf, posinf => posinf
  | neginf, neginf => neginf
  | posinf, neginf => nan
  | neginf, posinf => nan

/-- IEEE subtraction on `FVal`. -/
def FVal.sub (a b : FVal) : FVal := a.add b.neg

/-- IEEE multiplication on `FVal` (`0 * inf = NaN`, NaN propagates). -/
def FVal.mul : FVal → FVal → FVal
  | nan, _ => nan
  | _, nan => nan
  | fin p, fin q => fin (p * q)
  | fin p, posinf => if 0 < p then posinf else if p < 0 then neginf else nan
  | fin p, neginf => if 0 < p then neginf else if p < 0 then posinf else nan
  | posinf, fin q => if 0 < q then posinf else if q < 0 then neginf else nan
  | neginf, fin q => if 0 < q then neginf else if q < 0 then posinf else nan
  | posinf, posinf => posinf
  | neginf, neginf => posinf
  | posinf, neginf => neginf
  | neginf, posinf => neginf

/-- IEEE division on `FVal` (only ever used with finite non-zero divisors in
the embedded code, but total). -/
def FVal.div : FVal → FVal → FVal
  | nan, _ => nan
  | _, nan => nan
  | fin p, fin q =>
      if q = 0 then (if 0 < p then posinf else if p < 0 then neginf else nan)
      else fin (p / q)
  | posinf, fin q => if 0 ≤ q then posinf else neginf
  | neginf, fin q => if 0 ≤ q then neginf else posinf
  | fin _, posinf => fin 0
  | fin _, neginf => fin 0
  | posinf, posinf => nan
  | posinf, neginf => nan
  | neginf, posinf => nan
  | neginf, neginf => nan

/-- Model of `np.ceil` on `FVal` (identity on the non-finite elements). -/
def FVal.ceil : FVal → FVal
  | fin q => fin ((⌈q⌉ : ℤ) : ℚ)
  | posinf => posinf
  | neginf => neginf
  | nan => nan

/-- Finiteness test (`np.isfinite`). -/
def FVal.isFinite : FVal → Bool
  | fin _ => true
  | _ => false

instance : Add FVal := ⟨FVal.add⟩
instance : Sub FVal := ⟨FVal.sub⟩
instance : Mul FVal := ⟨FVal.mul⟩
instance : Neg FVal := ⟨FVal.neg⟩

@[simp] theorem FVal.fin_add_fin (p q : ℚ) : FVal.fin p + FVal.fin q = FVal.fin (p + q) := rfl

@[simp] theorem FVal.neginf_add_posinf : FVal.neginf + FVal.posinf = FVal.nan := rfl

@[simp] theorem FVal.posinf_add_neginf : FVal.posinf + FVal.neginf = FVal.nan := rfl

@[simp] theorem FVal.fin_sub_fin (p q : ℚ) : FVal.fin p - FVal.fin q = FVal.fin (p - q) := by
  show FVal.fin (p + -q) = _
  rw [sub_eq_add_neg]

@[simp] theorem FVal.fin_sub_neginf (p : ℚ) : FVal.fin p - FVal.neginf = FVal.posinf := rfl

@[simp] theorem FVal.fin_sub_posinf (p : ℚ) : FVal.fin p - FVal.posinf = FVal.neginf := rfl

@[simp] theorem FVal.neginf_sub_fin (p : ℚ) : FVal.neginf - FVal.fin p = FVal.neginf := rfl

@[simp] theorem FVal.posinf_sub_fin (p : ℚ) : FVal.posinf - FVal.fin p = FVal.posinf := rfl

@[simp] theorem FVal.neginf_add_fin (p : ℚ) : FVal.neginf + FVal.fin p = FVal.neginf := rfl

@[simp] theorem FVal.posinf_add_fin (p : ℚ) : FVal.posinf + FVal.fin p = FVal.posinf := rfl

@[simp] theorem FVal.fin_add_neginf (p : ℚ) : FVal.fin p + FVal.neginf = FVal.neginf := rfl

@[simp] theorem FVal.fin_add_posinf (p : ℚ) : FVal.fin p + FVal.posinf = FVal.posinf := rfl

@[simp] theorem FVal.neginf_add_nan : FVal.neginf + FVal.nan = FVal.nan := rfl

@[simp] theorem FVal.nan_add (a : FVal) : FVal.nan + a = FVal.nan := by cases a <;> rfl

@[simp] theorem FVal.fin_mul_fin (p q : ℚ) : FVal.fin p * FVal.fin q = FVal.fin (p * q) := rfl

@[simp] theorem FVal.posinf_mul_fin (q : ℚ) :
    FVal.posinf * FVal.fin q =
      if 0 < q then FVal.posinf else if q < 0 then FVal.neginf else FVal.nan := rfl

@[simp] theorem FVal.neginf_mul_fin (q : ℚ) :
    FVal.neginf * FVal.fin q =
      if 0 < q then FVal.neginf else if q < 0 then FVal.posinf else FVal.nan := rfl

@[simp] theorem FVal.nan_mul (a : FVal) : FVal.nan * a = FVal.nan := by cases a <;> rfl

@[simp] theorem FVal.nan_sub (a : FVal) : FVal.nan - a = FVal.nan := by cases a <;> rfl

@[simp] theorem FVal.div_fin_fin (p q : ℚ) :
    (FVal.fin p).div (FVal.fin q) =
      if q = 0 then (if 0 < p then FVal.posinf else if p < 0 then FVal.neginf else FVal.nan)
      else FVal.fin (p / q) := rfl

@[simp] theorem FVal.div_nan_left (a : FVal) : FVal.nan.div a = FVal.nan := by cases a <;> rfl

@[simp] theorem FVal.ceil_fin (q : ℚ) : (FVal.fin q).ceil = FVal.fin ((⌈q⌉ : ℤ) : ℚ) := rfl

@[simp] theorem FVal.ceil_nan : FVal.nan.ceil = FVal.nan := rfl

@[simp] theorem FVal.mul_nan_fin (q : ℚ) : FVal.nan * FVal.fin q = FVal.nan := rfl

/-- Comparison used by `np.sort`: `-inf` sorts first, NaN sorts last. -/
def FVal.sortLE : FVal → FVal → Bool
  | nan, nan => true
  | _, nan => true
  | nan, _ => false
  | neginf, _ => true
  | _, neginf => false
  | _, posinf => true
  | posinf, _ => false
  | fin p, fin q => decide (p ≤ q)

/-- Insertion step of the ascending sort used to model `np.sort`. -/
def insertF (a : FVal) : List FVal → List FVal
  | [] => [a]
  | b :: bs => if FVal.sortLE a b then a :: b :: bs else b :: insertF a bs

/-- Ascending sort of `FVal`s (model of `np.sort`, which `np.percentile`
applies to its input). -/
def sortF : List FVal → List FVal
  | [] => []
  | a :: as => insertF a (sortF as)

/-- Model of `np.percentile(l, 5)` with the default linear interpolation: virtual
index `r = (5/100)*(n-1)` into the ascending sort, linearly interpolating
between the two enclosing entries (with numpy's two-sided lerp). -/
def percentileF (l : List FVal) : FVal :=
  let s := sortF l
  let n := s.length
  let r : ℚ := 5 * ((n : ℚ) - 1) / 100
  let i : ℕ := (⌊r⌋).toNat
  let t : ℚ := r - (i : ℚ)
  if i + 1 < n then
    (if t < 1 / 2 then
      (s.getD i FVal.nan) + ((s.getD (i + 1) FVal.nan) - (s.getD i FVal.nan)) * FVal.fin t
    else
      (s.getD (i + 1) FVal.nan) - ((s.getD (i + 1) FVal.nan) - (s.getD i FVal.nan)) * FVal.fin (1 - t))
  else
    s.getD (n - 1) FVal.nan

/-- Model of `np.maximum` of two values (NaN propagates). -/
def fmax2 : FVal → FVal → FVal
  | .nan, _ => .nan
  | _, .nan => .nan
  | .posinf, _ => .posinf
  | _, .posinf => .posinf
  | .neginf, b => b
  | a, .neginf => a
  | .fin p, .fin q => .fin (max p q)

/-- Model of `np.max` of a list (reduction by `np.maximum`; `nan` on the empty list,
which the embedded call sites never hit). -/
def maxF : List FVal → FVal
  | [] => FVal.nan
  | a :: as => as.foldl fmax2 a

/-- Lines 200-202 of `psd.py`: `pxx_db_all = []` then
`pxx_db_all += pxx_db.tolist()` for every `(f, pxx_db)` in `self.psd` —
the pooled power-in-dB sequence, with no filtering of any kind. -/
def pxx_db_all (psd : List (List FVal × List FVal)) : List FVal :=
  (psd.map Prod.snd).flatten

/-- Lines 203-205 of `psd.py` (`db_lim == 'smart'` branch):
`db_min = np.percentile(pxx_db_all, 5)`, `db_max = np.max(pxx_db_all)`,
`db_lim = np.ceil(db_min / 10) * 10, np.ceil(db_max / 10) * 10`. -/
def smart_db_lim (psd : List (List FVal × List FVal)) : FVal × FVal :=
  let db_min := percentileF (pxx_db_all psd)
  let db_max := maxF (pxx_db_all psd)
  ((db_min.div (FVal.fin 10)).ceil * FVal.fin 10,
   (db_max.div (FVal.fin 10)).ceil * FVal.fin 10)

/-- One input waveform, as consumed by `psd.py`: sample values, sampling
rate (`tr.stats.sampling_rate`) and channel identifier
(`tr.stats.channel`). -/
structure Trace where
  data : List ℚ
  sampling_rate : ℚ
  channel : List Char
deriving DecidableEq

/-- Errors of the engine named by the spec; in the source each is an
`assert` (or an exception from classification) in `PSD.__init__`/`PSD.plot`. -/
inductive SaulError where
  | mixedOrUnknownDataKind : SaulError
  | emptyBatch : SaulError
  | invalidAxisConfiguration : SaulError
  | invalidNoiseModelChoice : SaulError
  | insufficientSamples : SaulError
deriving DecidableEq

/-- The two data kinds of `psd.py` (`self.data_kind`). -/
inductive DataKind where
  | seismic : DataKind
  | infrasound : DataKind
deriving DecidableEq

/-- The two infrasound noise-model choices of `PSD.plot`
(`infra_noise_model`): `ak` (Alaska / "regional") and `idc` (IMS array). -/
inductive InfraNoiseModel where
  | ak : InfraNoiseModel
  | idc : InfraNoiseModel
deriving DecidableEq

/-- Modelled from the spec: `REFERENCE_PRESSURE` from
`saul/spectral/helpers.py` (not among the sources): the infrasound
reference value, "reference value = 20e-6 Pa". -/
noncomputable def REFERENCE_PRESSURE : ℝ := 20 * (10 : ℝ) ^ (-6 : ℤ)

/-- Modelled from the spec: `REFERENCE_VELOCITY` from
`saul/spectral/helpers.py` (not among the sources): "seismic → 1, a
velocity proxy unit". -/
noncomputable def REFERENCE_VELOCITY : ℝ := 1

/-- Lines 96-98 of `psd.py`: `self.db_ref_val = REFERENCE_PRESSURE if
self.data_kind == 'infrasound' else REFERENCE_VELOCITY`. -/
noncomputable def db_ref_val : DataKind → ℝ
  | .infrasound => REFERENCE_PRESSURE
  | .seismic => REFERENCE_VELOCITY

/-- Lines 118-120 of `psd.py`, applied to one raw spectrum `(f, pxx)`:
`f, pxx = f[1:], pxx[1:]` (drop the DC component) then
`pxx_db = 10 * np.log10(pxx / (self.db_ref_val**2))`. -/
noncomputable def normalizePair (ref : ℝ) (fp : List ℝ × List ℝ) : List ℝ × List ℝ :=
  (fp.1.drop 1, (fp.2.drop 1).map (fun pxx => 10 * Real.logb 10 (pxx / ref ^ 2)))

/-- Lines 101-121 of `psd.py`: the `for tr in self.st` loop filling
`self.psd`, one `(f, pxx_db)` pair per trace in stream order.  The raw
spectral estimate of a single trace (`scipy.signal.welch` or the cached
multitaper call, both external) is the parameter `estimate`. -/
noncomputable def computePSD (estimate : Trace → List ℝ × List ℝ) (ref : ℝ) (st : List Trace) :
    List (List ℝ × List ℝ) :=
  st.map (fun tr => normalizePair ref (estimate tr))

/-- Lines 154-169 of `psd.py`: noise-model retrieval and re-referencing.
The external providers (`get_ak_infra_noise`, `get_idc_infra_low_noise`,
`get_idc_infra_hi_noise`, `get_nlnm`, `get_nhnm`) are passed as arguments:
`ak_period` with `ak_nms` stands for `period, *nms = get_ak_infra_noise()`.
For infrasound, every curve is converted by
`pxx_db_rel_ref_val = pxx_db_rel_1_pa - 10 * np.log10(self.db_ref_val**2)`;
for seismic, `noise_models = [get_nlnm(), get_nhnm()]` unchanged. -/
noncomputable def noise_models (data_kind : DataKind) (infra_noise_model : InfraNoiseModel) (ref : ℝ)
    (ak_period : List ℝ) (ak_nms : List (List ℝ))
    (idc_low idc_hi : List ℝ × List ℝ) (nlnm nhnm : List ℝ × List ℝ) :
    List (List ℝ × List ℝ) :=
  match data_kind with
  | .infrasound =>
      (match infra_noise_model with
        | .ak => ak_nms.map (fun nm => (ak_period, nm))
        | .idc => [idc_low, idc_hi]).map
        (fun noise_model : List ℝ × List ℝ =>
          (noise_model.1,
           noise_model.2.map (fun pxx_db_rel_1_pa =>
             pxx_db_rel_1_pa - 10 * Real.logb 10 (ref ^ 2))))
  | .seismic => [nlnm, nhnm]

/-- Modelled from the spec: `CYCLES_PER_WINDOW` from
`saul/spectral/helpers.py` (not among the sources): "a fixed small integer
of cycles, e.g. 2"; the spec's scenarios fix it to 2. -/
def CYCLES_PER_WINDOW : ℚ := 2

/-- Line 188 of `psd.py` (Welch case):
`fmin = 1 / (self.win_dur / CYCLES_PER_WINDOW)`. -/
def fmin_welch (win_dur : ℚ) : ℚ := 1 / (win_dur / CYCLES_PER_WINDOW)

/-- Model of `np.min` of a list of rationals (0 on the empty list, never hit by the
embedded call sites). -/
def npMin : List ℚ → ℚ
  | [] => 0
  | a :: as => as.foldl min a

/-- Model of the builtin `max(...)` of a list of rationals (0 on the empty list, never hit by
the embedded call sites). -/
def npMax : List ℚ → ℚ
  | [] => 0
  | a :: as => as.foldl max a

/-- Line 190 of `psd.py` (multitaper case):
`fmin = np.min([f for f, _ in self.psd])` — the minimum over all frequency
values of all computed spectra. -/
def fmin_multitaper (psd : List (List ℚ × List ℚ)) : ℚ :=
  npMin ((psd.map Prod.fst).flatten)

/-- Line 191 of `psd.py`:
`fmax = max([tr.stats.sampling_rate for tr in self.st]) / 2`. -/
def fmax_nyquist (st : List Trace) : ℚ :=
  npMax (st.map Trace.sampling_rate) / 2

/-- Modelled from the spec: the channel-code test inside `_data_kind` of
`saul/spectral/helpers.py` (not among the sources): "for all identifiers
with second character `H`, classify `seismic`; for all with characters 2-3
equal to `DF`, classify `infrasound`"; anything else is unknown. -/
def channel_kind (channel : List Char) : Option DataKind :=
  match channel with
  | _ :: c2 :: rest =>
      if c2 = 'H' then some .seismic
      else
        match rest with
        | c3 :: _ => if c2 = 'D' ∧ c3 = 'F' then some .infrasound else none
        | [] => none
  | _ => none

/-- Modelled from the spec: `_data_kind` of `saul/spectral/helpers.py` (not
among the sources) applied to a batch, on top of the `assert
self.st.count() > 0` of `psd.py` line 92: every trace must classify to the
same kind, otherwise `MixedOrUnknownDataKind`. -/
def data_kind (st : List Trace) : Except SaulError DataKind :=
  match st with
  | [] => .error .emptyBatch
  | tr :: rest =>
      match channel_kind tr.channel with
      | some k =>
          if ∀ t ∈ rest, channel_kind t.channel = some k then .ok k
          else .error .mixedOrUnknownDataKind
      | none => .error .mixedOrUnknownDataKind

/-- Line 105 of `psd.py`: `nperseg = int(win_dur * fs)` (truncation of a
non-negative product is the floor). -/
def welch_nperseg (win_dur fs : ℚ) : ℕ := (⌊win_dur * fs⌋).toNat

/-- Line 106 of `psd.py`:
`nfft = np.power(2, int(np.ceil(np.log2(nperseg))) + 1)`; for `nperseg ≥ 1`
the exact value of `int(np.ceil(np.log2(nperseg)))` is `Nat.clog 2 nperseg`
(the ceiling of the base-2 logarithm). -/
def welch_nfft (nperseg : ℕ) : ℕ := 2 ^ (Nat.clog 2 nperseg + 1)

/-- The key of the multitaper memoization: the exact sample values
(`tuple(tr.data)`) and all numeric parameters (`nw`, `kspec`, `dt`,
`nfft`) of the `_mtspec` call at lines 109-115 of `psd.py`. -/
structure MTSpecKey where
  data : List ℚ
  nw : ℚ
  kspec : ℕ
  dt : ℚ
  nfft : ℕ
deriving DecidableEq

/-- Exact-key lookup in the memoization table. -/
def cache_lookup {R : Type} : List (MTSpecKey × R) → MTSpecKey → Option R
  | [], _ => none
  | (k, v) :: rest, key => if key = k then some v else cache_lookup rest key

/-- Modelled from the spec: the memoization wrapper `_mtspec` of
`saul/spectral/helpers.py` (not among the sources): a process-wide table
keyed by the exact argument values; a hit returns the stored result object
without recomputation.  The returned `Bool` records whether the underlying
estimator was (re)computed on this call. -/
def mtspec_call {R : Type} (compute : MTSpecKey → R) (cache : List (MTSpecKey × R))
    (key : MTSpecKey) : R × List (MTSpecKey × R) × Bool :=
  match cache_lookup cache key with
  | some r => (r, cache, false)
  | none => (compute key, (key, compute key) :: cache, true)

/-- Observable steps of a construct-then-plot session, used to settle the
ordering part of the eager-validation claim. -/
inductive PlotEvent where
  | estimated : ℕ → PlotEvent
  | noiseModelsDrawn : PlotEvent
  | rangeSelected : PlotEvent
deriving DecidableEq

/-- Lines 100-121 of `psd.py`: PSD estimation runs inside `__init__`, once
per trace, at construction time; the construction events record this. -/
noncomputable def psd_init (estimate : Trace → List ℝ × List ℝ) (ref : ℝ) (st : List Trace) :
    List PlotEvent × List (List ℝ × List ℝ) :=
  ((List.range st.length).map PlotEvent.estimated, computePSD estimate ref st)

/-- Lines 144-206 of `psd.py` (`PSD.plot`): the first statement is
`assert not (use_period and not log_x)`; only after it do the noise-model
drawing and the axis-range selection run. -/
def plot_phase (use_period log_x show_noise : Bool) :
    List PlotEvent × Except SaulError Unit :=
  if use_period && !log_x then ([], .error .invalidAxisConfiguration)
  else ((if show_noise then [PlotEvent.noiseModelsDrawn] else []) ++ [PlotEvent.rangeSelected],
        .ok ())

/-- A whole session: `PSD(...)` (which estimates) followed by `.plot(...)`,
with the emitted events in program order. -/
noncomputable def psd_session (estimate : Trace → List ℝ × List ℝ) (ref : ℝ) (st : List Trace)
    (use_period log_x show_noise : Bool) :
    List PlotEvent × Except SaulError Unit :=
  ((psd_init estimate ref st).1 ++ (plot_phase use_period log_x show_noise).1,
   (plot_phase use_period log_x show_noise).2)

/-! Helper lemmas about the sorting, percentile and maximum models. -/

theorem length_insertF (a : FVal) (l : List FVal) : (insertF a l).length = l.length + 1 := by
  induction l with
  | nil => rfl
  | cons b bs ih =>
    simp only [insertF]
    split
    · simp
    · simp [ih]

theorem mem_insertF (x a : FVal) (l : List FVal) : x ∈ insertF a l ↔ x = a ∨ x ∈ l := by
  induction l with
  | nil => simp [insertF]
  | cons b bs ih =>
    simp only [insertF]
    split
    · simp [List.mem_cons]
    · simp only [List.mem_cons, ih]
      tauto

theorem length_sortF (l : List FVal) : (sortF l).length = l.length := by
  induction l with
  | nil => rfl
  | cons a as ih => simp [sortF, length_insertF, ih]

theorem mem_sortF (x : FVal) (l : List FVal) : x ∈ sortF l ↔ x ∈ l := by
  induction l with
  | nil => simp [sortF]
  | cons a as ih => simp [sortF, mem_insertF, ih, List.mem_cons]

theorem getD_mem {s : List FVal} {i : ℕ} (h : i < s.length) : s.getD i FVal.nan ∈ s := by
  rw [List.getD_eq_getElem s FVal.nan h]
  exact List.getElem_mem h

theorem isFinite_iff {x : FVal} : x.isFinite = true ↔ ∃ q, x = FVal.fin q := by
  cases x <;> simp [FVal.isFinite]

/-- On a non-empty list of finite values, `np.percentile(·, 5)` is finite. -/
theorem percentileF_fin (l : List FVal) (hne : l ≠ [])
    (hfin : ∀ x ∈ l, x.isFinite = true) : ∃ p, percentileF l = FVal.fin p := by
  have hn : 0 < (sortF l).length := by
    rw [length_sortF]
    exact List.length_pos.mpr hne
  have hget : ∀ i : ℕ, i < (sortF l).length → ∃ q, (sortF l).getD i FVal.nan = FVal.fin q :=
    fun i hi => isFinite_iff.mp (hfin _ ((mem_sortF _ _).mp (getD_mem hi)))
  simp only [percentileF]
  split
  · rename_i h1
    obtain ⟨qa, hqa⟩ := hget _ (Nat.lt_of_succ_lt h1)
    obtain ⟨qb, hqb⟩ := hget _ h1
    rw [hqa, hqb]
    split
    · simp only [FVal.fin_sub_fin, FVal.fin_mul_fin, FVal.fin_add_fin]
      exact ⟨_, rfl⟩
    · simp only [FVal.fin_sub_fin, FVal.fin_mul_fin]
      exact ⟨_, rfl⟩
  · obtain ⟨qc, hqc⟩ := hget _ (Nat.sub_lt hn Nat.one_pos)
    rw [hqc]
    exact ⟨qc, rfl⟩

theorem foldl_fmax2_fin (l : List FVal) (hfin : ∀ x ∈ l, x.isFinite = true) :
    ∀ a : ℚ, ∃ M, l.foldl fmax2 (FVal.fin a) = FVal.fin M ∧ a ≤ M ∧
      ∀ q : ℚ, FVal.fin q ∈ l → q ≤ M := by
  induction l with
  | nil => exact fun a => ⟨a, rfl, le_refl a, by simp⟩
  | cons b bs ih =>
    intro a
    obtain ⟨qb, hqb⟩ := isFinite_iff.mp (hfin b (by simp))
    subst hqb
    obtain ⟨M, hM, haM, hall⟩ := ih (fun x hx => hfin x (by simp [hx])) (max a qb)
    refine ⟨M, ?_, le_trans (le_max_left a qb) haM, ?_⟩
    · simpa only [List.foldl_cons] using hM
    · intro q hq
      rcases List.mem_cons.mp hq with heq | hmem
      · injection heq with h
        subst h
        exact le_trans (le_max_right a q) haM
      · exact hall q hmem

/-- On a non-empty list of finite values, `np.max` is finite and bounds
every member. -/
theorem maxF_fin (l : List FVal) (hne : l ≠ [])
    (hfin : ∀ x ∈ l, x.isFinite = true) :
    ∃ M, maxF l = FVal.fin M ∧ ∀ q : ℚ, FVal.fin q ∈ l → q ≤ M := by
  cases l with
  | nil => exact absurd rfl hne
  | cons a as =>
    obtain ⟨qa, hqa⟩ := isFinite_iff.mp (hfin a (by simp))
    subst hqa
    obtain ⟨M, hM, haM, hall⟩ := foldl_fmax2_fin as (fun x hx => hfin x (by simp [hx])) qa
    refine ⟨M, hM, ?_⟩
    intro q hq
    rcases List.mem_cons.mp hq with heq | hmem
    · injection heq with h
      subst h
      exact haM
    · exact hall q hmem

/-- The `np.ceil(x / 10) * 10` step of line 205 on a finite value. -/
theorem ceil10_fin (p : ℚ) :
    ((FVal.fin p).div (FVal.fin 10)).ceil * FVal.fin 10 =
      FVal.fin (((⌈p / 10⌉ : ℤ) : ℚ) * 10) := by
  norm_num

/-- The value `ceil(q/10)*10` is an upper bound of `q` (the step never moves below). -/
theorem ceil10_ge (q : ℚ) : q ≤ ((⌈q / 10⌉ : ℤ) : ℚ) * 10 := by
  have h := Int.le_ceil (q / 10)
  have h2 : q / 10 * 10 ≤ ((⌈q / 10⌉ : ℤ) : ℚ) * 10 :=
    mul_le_mul_of_nonneg_right h (by norm_num)
  have h3 : q / 10 * 10 = q := div_mul_cancel₀ q (by norm_num)
  linarith

/-- C1 (amended): in smart mode both dB bounds are `ceil(·/10)*10` of the
pooled statistics — so both are multiples of 10 and both are upper bounds:
`db_min = ceil(p5/10)*10 ≥ p5` (the floor is NOT rounded outward/below the
5th percentile) and `db_max = ceil(max/10)*10 ≥` every pooled value. -/
theorem smart_db_lim_ceil_bounds (psd : List (List FVal × List FVal))
    (hne : pxx_db_all psd ≠ [])
    (hfin : ∀ x ∈ pxx_db_all psd, x.isFinite = true) :
    ∃ p5 M : ℚ,
      percentileF (pxx_db_all psd) = FVal.fin p5 ∧
      maxF (pxx_db_all psd) = FVal.fin M ∧
      (smart_db_lim psd).1 = FVal.fin (((⌈p5 / 10⌉ : ℤ) : ℚ) * 10) ∧
      (smart_db_lim psd).2 = FVal.fin (((⌈M / 10⌉ : ℤ) : ℚ) * 10) ∧
      p5 ≤ ((⌈p5 / 10⌉ : ℤ) : ℚ) * 10 ∧
      M ≤ ((⌈M / 10⌉ : ℤ) : ℚ) * 10 ∧
      ∀ q : ℚ, FVal.fin q ∈ pxx_db_all psd → q ≤ M := by
  obtain ⟨p5, hp5⟩ := percentileF_fin _ hne hfin
  obtain ⟨M, hM, hall⟩ := maxF_fin _ hne hfin
  refine ⟨p5, M, hp5, hM, ?_, ?_, ceil10_ge p5, ceil10_ge M, hall⟩
  · show ((percentileF (pxx_db_all psd)).div (FVal.fin 10)).ceil * FVal.fin 10 = _
    rw [hp5, ceil10_fin]
  · show ((maxF (pxx_db_all psd)).div (FVal.fin 10)).ceil * FVal.fin 10 = _
    rw [hM, ceil10_fin]

/-- C1 (witness): the amended theorem applied to the aggregate with one
spectrum whose only power-in-dB value is -5 dB. -/
theorem smart_db_lim_ceil_bounds_witness :
    pxx_db_all [([FVal.fin 1], [FVal.fin (-5)])] ≠ [] ∧
    (∀ x ∈ pxx_db_all [([FVal.fin 1], [FVal.fin (-5)])], x.isFinite = true) ∧
    ∃ p5 M : ℚ,
      percentileF (pxx_db_all [([FVal.fin 1], [FVal.fin (-5)])]) = FVal.fin p5 ∧
      maxF (pxx_db_all [([FVal.fin 1], [FVal.fin (-5)])]) = FVal.fin M ∧
      (smart_db_lim [([FVal.fin 1], [FVal.fin (-5)])]).1 =
        FVal.fin (((⌈p5 / 10⌉ : ℤ) : ℚ) * 10) ∧
      (smart_db_lim [([FVal.fin 1], [FVal.fin (-5)])]).2 =
        FVal.fin (((⌈M / 10⌉ : ℤ) : ℚ) * 10) ∧
      p5 ≤ ((⌈p5 / 10⌉ : ℤ) : ℚ) * 10 ∧
      M ≤ ((⌈M / 10⌉ : ℤ) : ℚ) * 10 ∧
      ∀ q : ℚ, FVal.fin q ∈ pxx_db_all [([FVal.fin 1], [FVal.fin (-5)])] → q ≤ M := by
  have h1 : pxx_db_all [([FVal.fin 1], [FVal.fin (-5)])] ≠ [] := by
    simp [pxx_db_all]
  have h2 : ∀ x ∈ pxx_db_all [([FVal.fin 1], [FVal.fin (-5)])], x.isFinite = true := by
    simp [pxx_db_all, FVal.isFinite]
  exact ⟨h1, h2, smart_db_lim_ceil_bounds _ h1 h2⟩

/-- C1 (counterexample): for the aggregate whose only pooled power-in-dB
value is -5 dB, the 5th percentile is -5 but the selected floor is
`ceil(-5/10)*10 = 0`, so `db_min ≤ 5th percentile` is false and the floor
is not rounded outward (downward). -/
theorem smart_db_lim_floor_not_outward :
    percentileF (pxx_db_all [([FVal.fin 1], [FVal.fin (-5)])]) = FVal.fin (-5) ∧
    (smart_db_lim [([FVal.fin 1], [FVal.fin (-5)])]).1 = FVal.fin 0 ∧
    ¬((0 : ℚ) ≤ (-5 : ℚ)) := by
  refine ⟨?_, ?_, by norm_num⟩
  · norm_num [pxx_db_all, percentileF, sortF, insertF, FVal.sortLE]
  · norm_num [smart_db_lim, pxx_db_all, percentileF, sortF, insertF, FVal.sortLE, maxF, fmax2]

/-- C2 (amended): the smart display-range selection performs NO
finite-value filtering — every power-in-dB value of every spectrum,
non-finite ones included, is passed to the percentile/maximum statistics
of lines 203-204. -/
theorem pxx_db_all_no_filtering (psd : List (List FVal × List FVal)) (v : FVal)
    (h : ∃ pr ∈ psd, v ∈ pr.2) : v ∈ pxx_db_all psd := by
  obtain ⟨pr, hpr, hv⟩ := h
  simp only [pxx_db_all, List.mem_flatten]
  exact ⟨pr.2, List.mem_map.mpr ⟨pr, hpr, rfl⟩, hv⟩

/-- C2 (witness): the `-inf` dB bin of the concrete aggregate reaches the
pooled statistics unfiltered. -/
theorem pxx_db_all_no_filtering_witness :
    (∃ pr ∈ [([FVal.fin 1, FVal.fin 2], [FVal.fin 0, FVal.neginf])], FVal.neginf ∈ pr.2) ∧
    FVal.neginf ∈ pxx_db_all [([FVal.fin 1, FVal.fin 2], [FVal.fin 0, FVal.neginf])] := by
  have h : ∃ pr ∈ [([FVal.fin 1, FVal.fin 2], [FVal.fin 0, FVal.neginf])],
      FVal.neginf ∈ pr.2 :=
    ⟨([FVal.fin 1, FVal.fin 2], [FVal.fin 0, FVal.neginf]), by simp, by simp⟩
  exact ⟨h, pxx_db_all_no_filtering _ _ h⟩

/-- C2 (counterexample): an aggregate with one finite bin (0 dB) and a
single degenerate bin (`-inf`, from a zero-power sample) makes the smart
floor NaN: the non-finite value is not filtered out and does make the
selected bound non-finite. -/
theorem smart_db_lim_nan_from_single_neginf :
    pxx_db_all [([FVal.fin 1, FVal.fin 2], [FVal.fin 0, FVal.neginf])] =
      [FVal.fin 0, FVal.neginf] ∧
    (FVal.fin 0).isFinite = true ∧
    FVal.neginf.isFinite = false ∧
    (smart_db_lim [([FVal.fin 1, FVal.fin 2], [FVal.fin 0, FVal.neginf])]).1 = FVal.nan := by
  refine ⟨by simp [pxx_db_all], rfl, rfl, ?_⟩
  norm_num [smart_db_lim, pxx_db_all, percentileF, sortF, insertF, FVal.sortLE, maxF, fmax2,
    FVal.div]

/-- C3: the normalizer drops the first (zero-frequency) sample of both axes
and computes `10*log10(power/ref^2)`; for positive powers,
`10**(power_db/10) * ref**2` recovers each raw power exactly (the
real-number model of recovery to floating-point tolerance). -/
theorem normalize_roundtrip (ref : ℝ) (f pxx : List ℝ)
    (href : 0 < ref) (hpxx : ∀ p ∈ pxx, 0 < p) :
    (normalizePair ref (f, pxx)).1 = f.drop 1 ∧
    ((normalizePair ref (f, pxx)).2).map (fun db => (10 : ℝ) ^ (db / 10) * ref ^ 2) =
      pxx.drop 1 := by
  refine ⟨rfl, ?_⟩
  simp only [normalizePair, List.map_map]
  have key : ∀ p ∈ pxx.drop 1,
      ((fun db => (10 : ℝ) ^ (db / 10) * ref ^ 2) ∘
        (fun x => 10 * Real.logb 10 (x / ref ^ 2))) p = p := by
    intro p hp
    have hp0 : 0 < p := hpxx p (List.mem_of_mem_drop hp)
    have href2 : (0 : ℝ) < ref ^ 2 := pow_pos href 2
    have hpos : 0 < p / ref ^ 2 := div_pos hp0 href2
    simp only [Function.comp]
    have h10 : (10 : ℝ) * Real.logb 10 (p / ref ^ 2) / 10 = Real.logb 10 (p / ref ^ 2) := by
      ring
    rw [h10, Real.rpow_logb (by norm_num) (by norm_num) hpos,
      div_mul_cancel₀ _ (ne_of_gt href2)]
  rw [List.map_congr_left key]
  exact List.map_id _

/-- C3 (witness): the round trip at `ref = 1`, raw spectrum
`f = [0, 1]`, `pxx = [4, 100]`. -/
theorem normalize_roundtrip_witness :
    (0 : ℝ) < 1 ∧
    (normalizePair 1 ([0, 1], [4, 100])).1 = [1] ∧
    ((normalizePair 1 ([0, 1], [4, 100])).2).map
      (fun db => (10 : ℝ) ^ (db / 10) * (1 : ℝ) ^ 2) = [100] := by
  have h01 : (0 : ℝ) < 1 := by norm_num
  have hp : ∀ p ∈ ([4, 100] : List ℝ), 0 < p := by
    intro p hp
    simp only [List.mem_cons, List.not_mem_nil, or_false] at hp
    rcases hp with rfl | rfl <;> norm_num
  have h := normalize_roundtrip 1 [0, 1] [4, 100] h01 hp
  exact ⟨h01, by simpa using h.1, by simpa using h.2⟩

/-- C4: the PSD aggregate computation yields exactly one normalized PSD per
input trace, in batch order: the output has the batch's length and its
`i`-th entry is the normalization of the `i`-th trace's raw spectrum. -/
theorem computePSD_one_per_trace (estimate : Trace → List ℝ × List ℝ) (ref : ℝ)
    (st : List Trace) (hne : st ≠ []) :
    (computePSD estimate ref st).length = st.length ∧
    ∀ (i : ℕ) (h1 : i < st.length) (h2 : i < (computePSD estimate ref st).length),
      (computePSD estimate ref st).get ⟨i, h2⟩ =
        normalizePair ref (estimate (st.get ⟨i, h1⟩)) := by
  refine ⟨by simp [computePSD], ?_⟩
  intro i h1 h2
  simp [computePSD]

/-- C4 (witness): a singleton batch with an abstract raw spectrum. -/
theorem computePSD_one_per_trace_witness :
    ([Trace.mk [1] 100 ['B', 'H', 'Z']] : List Trace) ≠ [] ∧
    (computePSD (fun _ => ([0, 1], [2, 3])) 1 [Trace.mk [1] 100 ['B', 'H', 'Z']]).length =
      ([Trace.mk [1] 100 ['B', 'H', 'Z']] : List Trace).length ∧
    (computePSD (fun _ => ([0, 1], [2, 3])) 1 [Trace.mk [1] 100 ['B', 'H', 'Z']]).get
        ⟨0, by simp [computePSD]⟩ =
      normalizePair 1 ((fun _ => (([0, 1], [2, 3]) : List ℝ × List ℝ))
        (([Trace.mk [1] 100 ['B', 'H', 'Z']] : List Trace).get ⟨0, by simp⟩)) := by
  have hne : ([Trace.mk [1] 100 ['B', 'H', 'Z']] : List Trace) ≠ [] := by simp
  have h := computePSD_one_per_trace (fun _ => ([0, 1], [2, 3])) 1
    [Trace.mk [1] 100 ['B', 'H', 'Z']] hne
  exact ⟨hne, h.1, h.2 0 (by simp) (by simp [computePSD])⟩

/-- C5: every infrasound noise-model curve — the three-curve ak/"regional"
set as well as the two-curve idc/"array" set — has its power axis
re-referenced by `power_db_new = power_db_old - 10*log10(ref^2)` with
`ref = REFERENCE_PRESSURE` (20e-6 Pa), while seismic curves are returned
without re-referencing. -/
theorem noise_models_rereference (ak_period nm1 nm2 nm3 : List ℝ)
    (idc_low idc_hi nlnm nhnm : List ℝ × List ℝ) :
    noise_models .infrasound .ak REFERENCE_PRESSURE ak_period [nm1, nm2, nm3]
        idc_low idc_hi nlnm nhnm =
      [(ak_period, nm1.map (fun p => p - 10 * Real.logb 10 (REFERENCE_PRESSURE ^ 2))),
       (ak_period, nm2.map (fun p => p - 10 * Real.logb 10 (REFERENCE_PRESSURE ^ 2))),
       (ak_period, nm3.map (fun p => p - 10 * Real.logb 10 (REFERENCE_PRESSURE ^ 2)))] ∧
    noise_models .infrasound .idc REFERENCE_PRESSURE ak_period [nm1, nm2, nm3]
        idc_low idc_hi nlnm nhnm =
      [(idc_low.1, idc_low.2.map (fun p => p - 10 * Real.logb 10 (REFERENCE_PRESSURE ^ 2))),
       (idc_hi.1, idc_hi.2.map (fun p => p - 10 * Real.logb 10 (REFERENCE_PRESSURE ^ 2)))] ∧
    noise_models .seismic .ak REFERENCE_PRESSURE ak_period [nm1, nm2, nm3]
        idc_low idc_hi nlnm nhnm = [nlnm, nhnm] := by
  refine ⟨?_, ?_, rfl⟩ <;> simp [noise_models]

/-- C6: for `nperseg = int(win_dur * fs) ≥ 1` samples per segment the Welch
FFT length `2^(ceil(log2 nperseg) + 1)` is exactly twice the minimal
enclosing power of two of `nperseg` — one extra octave of zero padding
beyond the tightest power-of-two fit. -/
theorem welch_nfft_double_pad (win_dur fs : ℚ) (h : 1 ≤ welch_nperseg win_dur fs) :
    welch_nfft (welch_nperseg win_dur fs) =
      2 * 2 ^ (Nat.clog 2 (welch_nperseg win_dur fs)) ∧
    welch_nperseg win_dur fs ≤ 2 ^ (Nat.clog 2 (welch_nperseg win_dur fs)) ∧
    ∀ k : ℕ, welch_nperseg win_dur fs ≤ 2 ^ k →
      2 ^ (Nat.clog 2 (welch_nperseg win_dur fs)) ≤ 2 ^ k := by
  refine ⟨?_, Nat.le_pow_clog (by norm_num) _, ?_⟩
  · rw [welch_nfft, pow_succ, Nat.mul_comm]
  · intro k hk
    exact Nat.pow_le_pow_right (by norm_num)
      ((Nat.le_pow_iff_clog_le (by norm_num)).mp hk)

/-- C6 (witness): the defaults `win_dur = 60`, `fs = 100`
(`nperseg = 6000`). -/
theorem welch_nfft_double_pad_witness :
    1 ≤ welch_nperseg 60 100 ∧
    welch_nfft (welch_nperseg 60 100) = 2 * 2 ^ (Nat.clog 2 (welch_nperseg 60 100)) ∧
    welch_nperseg 60 100 ≤ 2 ^ (Nat.clog 2 (welch_nperseg 60 100)) := by
  have h : 1 ≤ welch_nperseg 60 100 := by norm_num [welch_nperseg]
  exact ⟨h, (welch_nfft_double_pad 60 100 h).1, (welch_nfft_double_pad 60 100 h).2.1⟩

theorem foldl_min_spec (l : List ℚ) : ∀ a : ℚ,
    (l.foldl min a = a ∨ l.foldl min a ∈ l) ∧
    l.foldl min a ≤ a ∧ ∀ x ∈ l, l.foldl min a ≤ x := by
  induction l with
  | nil => exact fun a => ⟨Or.inl rfl, le_refl a, by simp⟩
  | cons b bs ih =>
    intro a
    obtain ⟨hmem, hle, hall⟩ := ih (min a b)
    simp only [List.foldl_cons]
    refine ⟨?_, le_trans hle (min_le_left a b), ?_⟩
    · rcases hmem with h | h
      · rcases le_total a b with hab | hba
        · exact Or.inl (h.trans (min_eq_left hab))
        · refine Or.inr ?_
          rw [h, min_eq_right hba]
          exact List.mem_cons_self b bs
      · exact Or.inr (List.mem_cons_of_mem b h)
    · intro x hx
      rcases List.mem_cons.mp hx with rfl | hxbs
      · exact le_trans hle (min_le_right a x)
      · exact hall x hxbs

theorem foldl_max_spec (l : List ℚ) : ∀ a : ℚ,
    (l.foldl max a = a ∨ l.foldl max a ∈ l) ∧
    a ≤ l.foldl max a ∧ ∀ x ∈ l, x ≤ l.foldl max a := by
  induction l with
  | nil => exact fun a => ⟨Or.inl rfl, le_refl a, by simp⟩
  | cons b bs ih =>
    intro a
    obtain ⟨hmem, hle, hall⟩ := ih (max a b)
    simp only [List.foldl_cons]
    refine ⟨?_, le_trans (le_max_left a b) hle, ?_⟩
    · rcases hmem with h | h
      · rcases le_total b a with hba | hab
        · exact Or.inl (h.trans (max_eq_left hba))
        · refine Or.inr ?_
          rw [h, max_eq_right hab]
          exact List.mem_cons_self b bs
      · exact Or.inr (List.mem_cons_of_mem b h)
    · intro x hx
      rcases List.mem_cons.mp hx with rfl | hxbs
      · exact le_trans (le_max_right a x) hle
      · exact hall x hxbs

/-- On a non-empty list, `np.min` is an attained lower bound. -/
theorem npMin_spec (l : List ℚ) (h : l ≠ []) :
    npMin l ∈ l ∧ ∀ x ∈ l, npMin l ≤ x := by
  cases l with
  | nil => exact absurd rfl h
  | cons a as =>
    obtain ⟨hmem, hle, hall⟩ := foldl_min_spec as a
    constructor
    · rcases hmem with heq | hm
      · rw [npMin, heq]
        exact List.mem_cons_self a as
      · exact List.mem_cons_of_mem a hm
    · intro x hx
      rcases List.mem_cons.mp hx with rfl | hxs
      · exact hle
      · exact hall x hxs

/-- On a non-empty list, `max(...)` is an attained upper bound. -/
theorem npMax_spec (l : List ℚ) (h : l ≠ []) :
    npMax l ∈ l ∧ ∀ x ∈ l, x ≤ npMax l := by
  cases l with
  | nil => exact absurd rfl h
  | cons a as =>
    obtain ⟨hmem, hle, hall⟩ := foldl_max_spec as a
    constructor
    · rcases hmem with heq | hm
      · rw [npMax, heq]
        exact List.mem_cons_self a as
      · exact List.mem_cons_of_mem a hm
    · intro x hx
      rcases List.mem_cons.mp hx with rfl | hxs
      · exact hle
      · exact hall x hxs

/-- C7: the display-range selector's frequency bounds: for Welch the floor
is `1/(win_dur/CYCLES_PER_WINDOW) = CYCLES_PER_WINDOW/win_dur` (`2/60` at
the default segment duration), for multitaper it is the minimum frequency
present across all computed spectra, and the ceiling is the maximum Nyquist
frequency `max(sampling_rate)/2` over the batch. -/
theorem freq_range_selection (win_dur : ℚ) (psd : List (List ℚ × List ℚ)) (st : List Trace)
    (hw : 0 < win_dur) (hpsd : (psd.map Prod.fst).flatten ≠ []) (hst : st ≠ []) :
    fmin_welch win_dur = CYCLES_PER_WINDOW / win_dur ∧
    fmin_welch 60 = 2 / 60 ∧
    fmin_multitaper psd ∈ (psd.map Prod.fst).flatten ∧
    (∀ x ∈ (psd.map Prod.fst).flatten, fmin_multitaper psd ≤ x) ∧
    2 * fmax_nyquist st ∈ st.map Trace.sampling_rate ∧
    (∀ tr ∈ st, tr.sampling_rate / 2 ≤ fmax_nyquist st) := by
  obtain ⟨hmin_mem, hmin_le⟩ := npMin_spec _ hpsd
  have hrates : st.map Trace.sampling_rate ≠ [] := by simpa using hst
  obtain ⟨hmax_mem, hmax_le⟩ := npMax_spec _ hrates
  refine ⟨one_div_div _ _, by norm_num [fmin_welch, CYCLES_PER_WINDOW], hmin_mem, hmin_le,
    ?_, ?_⟩
  · have h2 : 2 * fmax_nyquist st = npMax (st.map Trace.sampling_rate) := by
      rw [fmax_nyquist]
      ring
    rw [h2]
    exact hmax_mem
  · intro tr htr
    have hb := hmax_le _ (List.mem_map_of_mem Trace.sampling_rate htr)
    rw [fmax_nyquist]
    linarith

/-- C7 (witness): default Welch duration 60 s with a two-trace batch at
100 Hz and 50 Hz and a concrete multitaper aggregate. -/
theorem freq_range_selection_witness :
    (0 : ℚ) < 60 ∧
    fmin_welch 60 = 2 / 60 ∧
    fmin_multitaper [([1, 2], [0, 0])] ∈
      (([([1, 2], [0, 0])] : List (List ℚ × List ℚ)).map Prod.fst).flatten ∧
    2 * fmax_nyquist [Trace.mk [1] 100 ['B', 'H', 'Z'], Trace.mk [1] 50 ['B', 'H', 'Z']] ∈
      ([Trace.mk [1] 100 ['B', 'H', 'Z'], Trace.mk [1] 50 ['B', 'H', 'Z']] : List Trace).map
        Trace.sampling_rate := by
  have hw : (0 : ℚ) < 60 := by norm_num
  have hpsd : (([([1, 2], [0, 0])] : List (List ℚ × List ℚ)).map Prod.fst).flatten ≠ [] := by
    simp
  have hst : ([Trace.mk [1] 100 ['B', 'H', 'Z'], Trace.mk [1] 50 ['B', 'H', 'Z']] :
      List Trace) ≠ [] := by simp
  have h := freq_range_selection 60 [([1, 2], [0, 0])]
    [Trace.mk [1] 100 ['B', 'H', 'Z'], Trace.mk [1] 50 ['B', 'H', 'Z']] hw hpsd hst
  exact ⟨hw, h.2.1, h.2.2.1, h.2.2.2.2.1⟩

/-- The batch property "second channel character is `c`" (1-indexed
position 2). -/
def second_char_is (c : Char) : List Char → Bool
  | _ :: c2 :: _ => c2 == c
  | _ => false

/-- The batch property "channel characters 2-3 (1-indexed) are `a` and
`b`". -/
def chars23_are (a b : Char) : List Char → Bool
  | _ :: c2 :: c3 :: _ => c2 == a && c3 == b
  | _ => false

theorem channel_kind_of_secondH (ch : List Char)
    (h : second_char_is 'H' ch = true) : channel_kind ch = some .seismic := by
  match ch with
  | [] => exact absurd h (by simp [second_char_is])
  | [_] => exact absurd h (by simp [second_char_is])
  | c1 :: c2 :: rest =>
    have hc2 : c2 = 'H' := by simpa [second_char_is] using h
    simp [channel_kind, hc2]

theorem channel_kind_of_DF (ch : List Char)
    (h : chars23_are 'D' 'F' ch = true) : channel_kind ch = some .infrasound := by
  match ch with
  | [] => exact absurd h (by simp [chars23_are])
  | [_] => exact absurd h (by simp [chars23_are])
  | [_, _] => exact absurd h (by simp [chars23_are])
  | c1 :: c2 :: c3 :: rest =>
    have hc : c2 = 'D' ∧ c3 = 'F' := by simpa [chars23_are] using h
    obtain ⟨h2, h3⟩ := hc
    subst h2
    subst h3
    simp [channel_kind]

theorem data_kind_ok_iff (st : List Trace) (k : DataKind) :
    data_kind st = .ok k ↔ st ≠ [] ∧ ∀ tr ∈ st, channel_kind tr.channel = some k := by
  cases st with
  | nil => simp [data_kind]
  | cons tr rest =>
    simp only [data_kind]
    cases h : channel_kind tr.channel with
    | none =>
      dsimp only
      constructor
      · intro hcontra
        exact absurd hcontra (by simp)
      · rintro ⟨-, hall⟩
        have h0 := hall tr (by simp)
        rw [h] at h0
        exact absurd h0 (by simp)
    | some k2 =>
      dsimp only
      split
      · rename_i hall2
        constructor
        · intro hk
          have hkk : k2 = k := by simpa using hk
          subst hkk
          refine ⟨by simp, ?_⟩
          intro t ht
          rcases List.mem_cons.mp ht with rfl | htr
          · exact h
          · exact hall2 t htr
        · rintro ⟨-, hall⟩
          have h0 := hall tr (by simp)
          rw [h] at h0
          have hkk : k2 = k := by simpa using h0
          subst hkk
          rfl
      · rename_i hnall
        constructor
        · intro hcontra
          exact absurd hcontra (by simp)
        · rintro ⟨-, hall⟩
          have h0 := hall tr (by simp)
          rw [h] at h0
          have hkk : k2 = k := by simpa using h0
          subst hkk
          exact absurd (fun t ht => hall t (List.mem_cons_of_mem tr ht)) hnall

/-- In the non-empty case the classifier returns either a kind or the
mixed/unknown error, never the empty-batch error. -/
theorem data_kind_ok_or_mixed (st : List Trace) (hne : st ≠ []) :
    (∃ k, data_kind st = .ok k) ∨ data_kind st = .error .mixedOrUnknownDataKind := by
  cases st with
  | nil => exact absurd rfl hne
  | cons tr rest =>
    simp only [data_kind]
    cases channel_kind tr.channel with
    | none => exact Or.inr rfl
    | some k2 =>
      dsimp only
      split
      · exact Or.inl ⟨k2, rfl⟩
      · exact Or.inr rfl

/-- C8: classification is total on well-formed channel identifiers: an
all-`H`-second-character batch is seismic, an all-`DF` batch is infrasound,
a batch containing both kinds fails with `MixedOrUnknownDataKind`, and the
chosen kind selects the reference value (pressure constant for infrasound,
velocity reference for seismic). -/
theorem data_kind_classification (st : List Trace) (hne : st ≠ []) :
    ((∀ tr ∈ st, second_char_is 'H' tr.channel = true) → data_kind st = .ok .seismic) ∧
    ((∀ tr ∈ st, chars23_are 'D' 'F' tr.channel = true) → data_kind st = .ok .infrasound) ∧
    (((∃ tr ∈ st, second_char_is 'H' tr.channel = true) ∧
      (∃ tr ∈ st, chars23_are 'D' 'F' tr.channel = true)) →
      data_kind st = .error .mixedOrUnknownDataKind) ∧
    db_ref_val .infrasound = REFERENCE_PRESSURE ∧
    db_ref_val .seismic = REFERENCE_VELOCITY := by
  refine ⟨?_, ?_, ?_, rfl, rfl⟩
  · intro hall
    exact (data_kind_ok_iff st .seismic).mpr
      ⟨hne, fun tr htr => channel_kind_of_secondH _ (hall tr htr)⟩
  · intro hall
    exact (data_kind_ok_iff st .infrasound).mpr
      ⟨hne, fun tr htr => channel_kind_of_DF _ (hall tr htr)⟩
  · rintro ⟨⟨trH, hH, hH2⟩, ⟨trD, hD, hD2⟩⟩
    have hnotok : ∀ k, data_kind st ≠ .ok k := by
      intro k hk
      obtain ⟨-, hall⟩ := (data_kind_ok_iff st k).mp hk
      have h1 := hall trH hH
      rw [channel_kind_of_secondH _ hH2] at h1
      have h2 := hall trD hD
      rw [channel_kind_of_DF _ hD2] at h2
      have hsk : DataKind.seismic = k := by simpa using h1
      have hik : DataKind.infrasound = k := by simpa using h2
      exact absurd (hsk.trans hik.symm) (by simp)
    rcases data_kind_ok_or_mixed st hne with ⟨k, hk⟩ | h
    · exact absurd hk (hnotok k)
    · exact h

/-- C8 (witness): the mixed batch `[BHZ, BDF]` fails with
`MixedOrUnknownDataKind`. -/
theorem data_kind_classification_witness :
    ([Trace.mk [1] 100 ['B', 'H', 'Z'], Trace.mk [1] 100 ['B', 'D', 'F']] :
      List Trace) ≠ [] ∧
    data_kind [Trace.mk [1] 100 ['B', 'H', 'Z'], Trace.mk [1] 100 ['B', 'D', 'F']] =
      .error .mixedOrUnknownDataKind := by
  have hne : ([Trace.mk [1] 100 ['B', 'H', 'Z'], Trace.mk [1] 100 ['B', 'D', 'F']] :
      List Trace) ≠ [] := by simp
  have hex : (∃ tr ∈ ([Trace.mk [1] 100 ['B', 'H', 'Z'],
        Trace.mk [1] 100 ['B', 'D', 'F']] : List Trace),
        second_char_is 'H' tr.channel = true) ∧
      ∃ tr ∈ ([Trace.mk [1] 100 ['B', 'H', 'Z'],
        Trace.mk [1] 100 ['B', 'D', 'F']] : List Trace),
        chars23_are 'D' 'F' tr.channel = true := by
    constructor
    · exact ⟨Trace.mk [1] 100 ['B', 'H', 'Z'], by simp, by simp [second_char_is]⟩
    · exact ⟨Trace.mk [1] 100 ['B', 'D', 'F'], by simp, by simp [chars23_are]⟩
  exact ⟨hne, (data_kind_classification _ hne).2.2.1 hex⟩

/-- C9 (amended): requesting a plot with `use_period` and a linear x-axis
fails with `InvalidAxisConfiguration` as the FIRST statement of `plot`,
before any plot-phase work (no noise-model drawing, no range selection) —
but estimation has already run for every trace, because estimation happens
at PSD construction time, before `plot` can be called. -/
theorem plot_invalid_axis_config (estimate : Trace → List ℝ × List ℝ) (ref : ℝ)
    (st : List Trace) (show_noise : Bool) (hne : st ≠ []) :
    (psd_session estimate ref st true false show_noise).2 =
      .error .invalidAxisConfiguration ∧
    (psd_session estimate ref st true false show_noise).1 =
      (List.range st.length).map PlotEvent.estimated ∧
    PlotEvent.rangeSelected ∉ (psd_session estimate ref st true false show_noise).1 ∧
    PlotEvent.estimated 0 ∈ (psd_session estimate ref st true false show_noise).1 := by
  have hplot : plot_phase true false show_noise = ([], .error .invalidAxisConfiguration) := rfl
  have hev : (psd_session estimate ref st true false show_noise).1 =
      (List.range st.length).map PlotEvent.estimated := by
    simp [psd_session, hplot, psd_init]
  refine ⟨by simp [psd_session, hplot], hev, ?_, ?_⟩
  · rw [hev]
    simp
  · rw [hev]
    have hlen : 0 < st.length := List.length_pos.mpr hne
    exact List.mem_map.mpr ⟨0, List.mem_range.mpr hlen, rfl⟩

/-- C9 (witness): one-trace session with `use_period = true`,
`log_x = false`. -/
theorem plot_invalid_axis_config_witness :
    ([Trace.mk [1] 100 ['B', 'H', 'Z']] : List Trace) ≠ [] ∧
    (psd_session (fun _ => ([0, 1], [2, 3])) 1 [Trace.mk [1] 100 ['B', 'H', 'Z']]
      true false true).2 = .error .invalidAxisConfiguration ∧
    PlotEvent.estimated 0 ∈ (psd_session (fun _ => ([0, 1], [2, 3])) 1
      [Trace.mk [1] 100 ['B', 'H', 'Z']] true false true).1 := by
  have hne : ([Trace.mk [1] 100 ['B', 'H', 'Z']] : List Trace) ≠ [] := by simp
  have h := plot_invalid_axis_config (fun _ => ([0, 1], [2, 3])) 1
    [Trace.mk [1] 100 ['B', 'H', 'Z']] true hne
  exact ⟨hne, h.1, h.2.2.2⟩

/-- C9 (counterexample): at the concrete one-trace session with
`use_period = true`, `log_x = false`, the session does fail with
`InvalidAxisConfiguration` — but its event trace is `[estimated 0]`:
estimation work has already been done when the check fires, so the failure
is NOT surfaced before estimation begins. -/
theorem plot_invalid_axis_after_estimation :
    (psd_session (fun _ => ([0, 1], [2, 3])) 1 [Trace.mk [1] 100 ['B', 'H', 'Z']]
      true false true).2 = .error .invalidAxisConfiguration ∧
    (psd_session (fun _ => ([0, 1], [2, 3])) 1 [Trace.mk [1] 100 ['B', 'H', 'Z']]
      true false true).1 = [PlotEvent.estimated 0] := by
  constructor
  · rfl
  · simp [psd_session, psd_init, plot_phase, List.range_succ]

/-- C10: calling the memoized multitaper wrapper a second time with a key
byte-identical to a previous call returns the result object stored by
the first call, leaves the cache unchanged, and performs no recomputation
(the computed flag of the second call is `false`). -/
theorem mtspec_cache_hit {R : Type} (compute : MTSpecKey → R)
    (cache : List (MTSpecKey × R)) (key : MTSpecKey) :
    mtspec_call compute (mtspec_call compute cache key).2.1 key =
      ((mtspec_call compute cache key).1, (mtspec_call compute cache key).2.1, false) := by
  rcases h : cache_lookup cache key with _ | r
  · have h1 : mtspec_call compute cache key = (compute key, (key, compute key) :: cache, true) := by
      unfold mtspec_call
      rw [h]
    rw [h1]
    have h2 : cache_lookup ((key, compute key) :: cache) key = some (compute key) := by
      unfold cache_lookup
      rw [if_pos rfl]
    unfold mtspec_call
    rw [h2]
  · have h1 : mtspec_call compute cache key = (r, cache, false) := by
      unfold mtspec_call
      rw [h]
    rw [h1]
    unfold mtspec_call
    rw [h]

/-- C10 (witness): a concrete double call with samples `[1, 2]`, `nw = 4`,
`kspec = 7`, `dt = 1/100`, `nfft = 256`. -/
theorem mtspec_cache_hit_witness :
    mtspec_call (fun k => k.nfft)
        (mtspec_call (fun k => k.nfft) [] (MTSpecKey.mk [1, 2] 4 7 (1 / 100) 256)).2.1
        (MTSpecKey.mk [1, 2] 4 7 (1 / 100) 256) =
      ((mtspec_call (fun k => k.nfft) [] (MTSpecKey.mk [1, 2] 4 7 (1 / 100) 256)).1,
       (mtspec_call (fun k => k.nfft) [] (MTSpecKey.mk [1, 2] 4 7 (1 / 100) 256)).2.1,
       false) :=
  mtspec_cache_hit (fun k => k.nfft) [] (MTSpecKey.mk [1, 2] 4 7 (1 / 100) 256)

end Saul
